import Mathlib

/-!
Verification development for the `errkit` error-classification engine
(`src/errkit/errors.go` of the `utils` repository).

Strings are modelled as `List Char` (`GoStr`), and the Go string helpers
(`strings.Contains`, `strings.Split`, `strings.Replace` with `new = ""`,
`strings.TrimSpace`, `strings.TrimSuffix`) are given executable definitions
below.  Recursive functions whose termination in Go rests on strings
shrinking are written with an explicit fuel parameter that is always
instantiated with a sufficient bound, so every definition evaluates by
kernel reduction.
-/

/-- Go strings, modelled as lists of characters. -/
abbrev GoStr := List Char

/-- Model of Go `unicode.IsSpace` restricted to the whitespace characters
relevant here: ASCII whitespace plus U+0085 and U+00A0. -/
def goIsSpace (c : Char) : Bool :=
  c == ' ' || c == '\t' || c == '\n' || c == '\x0b' || c == '\x0c' ||
  c == '\r' || c == '\u0085' || c == ' '

/-- Model of Go `strings.TrimSpace`: drop whitespace from both ends. -/
def trimSpace (s : GoStr) : GoStr :=
  ((s.dropWhile goIsSpace).reverse.dropWhile goIsSpace).reverse

/-- `pfx p s` is true when `p` is a prefix of `s`. -/
def pfx : GoStr → GoStr → Bool
  | [], _ => true
  | _ :: _, [] => false
  | a :: as, b :: bs => a == b && pfx as bs

/-- Index of the leftmost occurrence of `pat` in `s`, if any
(as used by Go `strings.Index`/`strings.Contains`). -/
def findOcc (pat : GoStr) : GoStr → Option Nat
  | [] => if pfx pat [] then some 0 else none
  | c :: rest =>
    if pfx pat (c :: rest) then some 0 else (findOcc pat rest).map (· + 1)

/-- Model of Go `strings.Contains(s, pat)`. -/
def containsB (pat s : GoStr) : Bool := (findOcc pat s).isSome

/-- Fueled worker for `strings.Split`: split on leftmost non-overlapping
occurrences of `sep`.  The fuel only bounds the recursion; `splitGo` below
supplies a sufficient amount. -/
def splitGoF : Nat → GoStr → GoStr → List GoStr
  | 0, _, s => [s]
  | fuel + 1, sep, s =>
    match findOcc sep s with
    | none => [s]
    | some i => s.take i :: splitGoF fuel sep (s.drop (i + sep.length))

/-- Model of Go `strings.Split(s, sep)` for non-empty `sep`
(the engine only splits on the non-empty delimiter constants). -/
def splitGo (sep s : GoStr) : List GoStr := splitGoF s.length sep s

/-- Fueled worker for `strings.Replace(s, old, new, -1)`.  With `old = ""`
it returns `s` unchanged, which agrees with Go when `new = ""` (the only
way the engine calls it). -/
def replaceGoF : Nat → GoStr → GoStr → GoStr → GoStr
  | 0, _, _, s => s
  | fuel + 1, old, nw, s =>
    if old = [] then s
    else
      match findOcc old s with
      | none => s
      | some i => s.take i ++ nw ++ replaceGoF fuel old nw (s.drop (i + old.length))

/-- Model of Go `strings.Replace(s, old, new, -1)` / `strings.ReplaceAll`. -/
def replaceGo (old nw s : GoStr) : GoStr := replaceGoF s.length old nw s

/-- Model of Go `strings.TrimSuffix(s, suf)`. -/
def trimSuffix (suf s : GoStr) : GoStr :=
  if pfx suf.reverse s.reverse then s.take (s.length - suf.length) else s

/-- `DelimArrow = "<-"`, the arrow delimiter joining errors. -/
def DelimArrow : GoStr := ['<', '-']

/-- `DelimArrowSerialized = "<-"`.  In Go source the escape `<`
denotes the character `<`, so this constant is the same two-character
string `"<-"` as `DelimArrow`. -/
def DelimArrowSerialized : GoStr := ['<', '-']

/-- `DelimSemiColon = "; "`. -/
def DelimSemiColon : GoStr := [';', ' ']

/-- `DelimMultiLine = "\n -  "`. -/
def DelimMultiLine : GoStr := ['\n', ' ', '-', ' ', ' ']

/-- `MultiLineErrPrefix = "the following errors occurred:"`
(renamed `MultiLineErrPfx` here). -/
def MultiLineErrPfx : GoStr := "the following errors occurred:".toList

/-- `MaxErrorDepth`: the configured depth bound, read from the environment
with default 3.  The claims are stated at the default. -/
def MaxErrorDepth : Nat := 3

/-- `ErrorSeperator`: the configured leaf separator, default `"; "`. -/
def ErrorSeperator : GoStr := [';', ' ']

mutual
/-- Model of a Go `error` value as seen by `parseError`'s type switch:
a plain error (`errors.New` / any type hitting the `default` case), an
already-canonical `*ErrorX` value, a `JoinedError` (`Unwrap() []error`),
a `WrappedError` (`Unwrap() error`, possibly returning nil: `wrappedNone`),
or a `CauseError` (`Cause() error`; the code dereferences the cause
unconditionally, so it is modelled non-nil).  Each non-`ErrorX` shape
carries the string its `Error()` method returns. -/
inductive GoErr where
  | basic (msg : GoStr)
  | errorX (kind : Option GoStr) (attrs : List (GoStr × GoStr)) (errs : GoErrList)
  | joined (msg : GoStr) (children : GoErrList)
  | wrapped (msg : GoStr) (child : GoErr)
  | wrappedNone (msg : GoStr)
  | causeErr (msg : GoStr) (cause : GoErr)

/-- Lists of `GoErr`, as a mutual inductive so that recursion over the
nesting is structural. -/
inductive GoErrList where
  | nil
  | cons (head : GoErr) (tail : GoErrList)
end

/-- Convert a `GoErrList` to an ordinary list. -/
def GoErrList.toList : GoErrList → List GoErr
  | .nil => []
  | .cons e es => e :: es.toList

/-- Rendering of the `errKind=<kind> ` prefix of `ErrorX.Error`:
present exactly when the kind is set (`non-nil`) and its name non-empty. -/
def kindPartStr (kind : Option GoStr) : GoStr :=
  match kind with
  | none => []
  | some k => if k = [] then [] else "errKind=".toList ++ k ++ [' ']

/-- Rendering of one `slog.Attr` as `key=value`. -/
def attrStr (kv : GoStr × GoStr) : GoStr := kv.1 ++ ['='] ++ kv.2

/-- Join strings with a separator between consecutive elements. -/
def sepJoin (sep : GoStr) : List GoStr → GoStr
  | [] => []
  | [x] => x
  | x :: y :: t => x ++ sep ++ sepJoin sep (y :: t)

/-- Rendering of `slog.GroupValue(maps.Values(attrs)...).String()`:
the attributes as `[k=v k2=v2]`.  Go map iteration order is unspecified;
the model fixes insertion order here (see `validIterOrder` for the
order-abstract account used by the attribute-order claim). -/
def groupStr (attrs : List (GoStr × GoStr)) : GoStr :=
  ['['] ++ sepJoin [' '] (attrs.map attrStr) ++ [']']

/-- Rendering of the attribute part of `ErrorX.Error`:
the group form followed by a space, when at least one attribute exists. -/
def attrsPartStr (attrs : List (GoStr × GoStr)) : GoStr :=
  if attrs = [] then [] else groupStr attrs ++ [' ']

/-- The body of `ErrorX.Error`: kind prefix, attribute group, then each
leaf string followed by the separator, with one trailing separator
occurrence trimmed from the whole string (`strings.TrimSuffix`). -/
def renderXStr (kind : Option GoStr) (attrs : List (GoStr × GoStr))
    (leafStrs : List GoStr) : GoStr :=
  trimSuffix ErrorSeperator
    (kindPartStr kind ++ attrsPartStr attrs ++
      (leafStrs.map (fun s => s ++ ErrorSeperator)).flatten)

mutual
/-- The string returned by a modelled error's `Error()` method.  For an
`ErrorX` value this is the `ErrorX.Error` rendering over its leaves. -/
def goErrError : GoErr → GoStr
  | .basic s => s
  | .errorX k attrs es => renderXStr k attrs (goErrListStrs es)
  | .joined msg _ => msg
  | .wrapped msg _ => msg
  | .wrappedNone msg => msg
  | .causeErr msg _ => msg

/-- `Error()` strings of a list of errors. -/
def goErrListStrs : GoErrList → List GoStr
  | .nil => []
  | .cons e es => goErrError e :: goErrListStrs es
end

/-- The `ErrorX` container: classification kind, attributes, leaf errors,
and the dedup set of leaf strings.  The Go `attrs` field is a
`map[string]slog.Attr`; it is modelled as an association list in insertion
order (the map's contents plus one admissible iteration order), and
`uniqErrs` (`map[string]struct{}`) as the list of inserted keys. -/
structure ErrorX where
  kind : Option GoStr
  attrs : List (GoStr × GoStr)
  errs : List GoErr
  uniqErrs : List GoStr

/-- The zero value `&ErrorX{}` (nil maps and slices become empty). -/
def ErrorX.empty : ErrorX := ⟨none, [], [], []⟩

/-- One iteration of the loop body of `ErrorX.append`: append the error
unless its `Error()` string is already in `uniqErrs`, recording the
string.  No depth check is performed. -/
def appendOne (acc : ErrorX) (err : GoErr) : ErrorX :=
  if goErrError err ∈ acc.uniqErrs then acc
  else { acc with errs := acc.errs ++ [err],
                  uniqErrs := acc.uniqErrs ++ [goErrError err] }

/-- `ErrorX.append`: the dedup-respecting append loop. -/
def ErrorX.append (e : ErrorX) (l : List GoErr) : ErrorX := l.foldl appendOne e

/-- `ErrorX.Error`: the rendered string of the container. -/
def ErrorX.error (e : ErrorX) : GoStr :=
  renderXStr e.kind e.attrs (e.errs.map goErrError)

/-- `ErrorX.Cause`: the first leaf, or nil when there are no leaves. -/
def ErrorX.cause (e : ErrorX) : Option GoErr := e.errs.head?

/-- Modelled from the spec: `CombineErrKinds` lives in the repository's
kind file, which is not among the provided sources.  Per §4.3 the combine
is total and deterministic and a previously-set non-default kind is
preserved, while an unset/empty kind adopts the other.  No claim verified
here depends on the precedence details. -/
def combineErrKinds (a b : Option GoStr) : Option GoStr :=
  match a with
  | none => b
  | some s => if s = [] then b else some s

/-- One iteration of the loop body of `ErrorX.SetAttr`: insert the
attribute only when its key is new and the attribute count is below
`MaxErrorDepth`. -/
def setAttrOne (acc : ErrorX) (attr : GoStr × GoStr) : ErrorX :=
  if !(acc.attrs.any (fun kv => kv.1 == attr.1)) &&
      acc.attrs.length < MaxErrorDepth then
    { acc with attrs := acc.attrs ++ [attr] }
  else acc

/-- `ErrorX.SetAttr`: the key-dedup bounded attribute-insert loop. -/
def ErrorX.setAttr (e : ErrorX) (l : List (GoStr × GoStr)) : ErrorX :=
  l.foldl setAttrOne e

/-- `ErrorX.Msgf`: append one formatted message as a leaf (the model takes
the already-formatted string). -/
def ErrorX.msgf (e : ErrorX) (msg : GoStr) : ErrorX := e.append [.basic msg]

/-- `New`: a fresh container with one formatted leaf. -/
def NewErrorX (msg : GoStr) : ErrorX := ErrorX.empty.append [.basic msg]

/-- Fueled worker for `parseError`.  One unit of fuel is spent per
recursive call; `parseError` supplies `errSize`, which bounds the
recursion depth, so the `0` case is never reached from `parseError`. -/
def parseErrorF : Nat → ErrorX → GoErr → ErrorX
  | 0, tgt, _ => tgt
  | fuel + 1, tgt, err =>
    if MaxErrorDepth ≤ tgt.errs.length then tgt
    else
      match err with
      | .errorX k _ es =>
        let tgt2 := ErrorX.append tgt es.toList
        { tgt2 with kind := combineErrKinds tgt2.kind k }
      | .joined msg children =>
        match children with
        | .nil => parseErrorF fuel tgt (.basic msg)
        | .cons _ _ => ErrorX.append tgt children.toList
      | .wrapped _ c => parseErrorF fuel tgt c
      | .wrappedNone msg => parseErrorF fuel tgt (.basic msg)
      | .causeErr msg cause =>
        let tgt2 := ErrorX.append tgt [cause]
        parseErrorF fuel tgt2 (.basic (replaceGo (goErrError cause) [] msg))
      | .basic s =>
        if containsB DelimArrow s then
          (splitGo DelimArrow s).reverse.foldl
            (fun acc part => parseErrorF fuel acc (.basic (trimSpace part))) tgt
        else if containsB DelimArrowSerialized s then
          (splitGo DelimArrowSerialized s).reverse.foldl
            (fun acc part => parseErrorF fuel acc (.basic (trimSpace part))) tgt
        else if containsB DelimSemiColon s then
          (splitGo DelimSemiColon s).foldl
            (fun acc part => parseErrorF fuel acc (.basic (trimSpace part))) tgt
        else if containsB MultiLineErrPfx s then
          (splitGo DelimMultiLine (replaceGo MultiLineErrPfx [] s)).foldl
            (fun acc part => parseErrorF fuel acc (.basic (trimSpace part))) tgt
        else ErrorX.append tgt [.basic s]

/-- Fuel bound for `parseErrorF`: every recursive call of the engine
strictly decreases this measure, so it bounds the recursion depth. -/
def errSize : GoErr → Nat
  | .basic s => s.length + 1
  | .errorX _ _ _ => 1
  | .joined msg _ => msg.length + 2
  | .wrapped _ c => errSize c + 1
  | .wrappedNone msg => msg.length + 2
  | .causeErr msg _ => msg.length + 2

/-- `parseError`: the recursive decomposition engine. -/
def parseError (tgt : ErrorX) (err : GoErr) : ErrorX :=
  parseErrorF (errSize err) tgt err

/-- `FromError`: nil in, nil out; otherwise decompose into a fresh
container.  The Go argument is an `error` interface value, modelled as
`Option GoErr`. -/
def FromError (err : Option GoErr) : Option ErrorX :=
  match err with
  | none => none
  | some e => some (parseError ErrorX.empty e)

/-- A string is delimiter-free when it contains none of the markers the
plain-error branch of `parseError` splits on. -/
def delimFree (s : GoStr) : Bool :=
  !containsB DelimArrow s && !containsB DelimSemiColon s &&
    !containsB MultiLineErrPfx s

/-- Dedup invariant of a container: leaf strings are pairwise distinct and
`uniqErrs` holds exactly the leaf strings. -/
def inv (e : ErrorX) : Prop :=
  (e.errs.map goErrError).Nodup ∧
    (∀ s ∈ e.uniqErrs, s ∈ e.errs.map goErrError) ∧
    ∀ s ∈ e.errs.map goErrError, s ∈ e.uniqErrs

instance (e : ErrorX) : Decidable (inv e) := by
  unfold inv; infer_instance

/-- Errors that never trigger a batch merge during decomposition: no
already-canonical `ErrorX` and no multi-child joined error anywhere along
the single-child spine. -/
def noBatch : GoErr → Bool
  | .basic _ => true
  | .errorX _ _ _ => false
  | .joined _ _ => false
  | .wrapped _ c => noBatch c
  | .wrappedNone _ => true
  | .causeErr _ _ => true

/-- A linear chain of single-child wrapped errors around `base`, with the
given wrapper messages from outermost to innermost. -/
def wrapChain (msgs : List GoStr) (base : GoErr) : GoErr :=
  msgs.foldr (fun m acc => GoErr.wrapped m acc) base

/-- Go map iteration order is unspecified: any permutation of the stored
attributes is an admissible result of `maps.Values(e.attrs)` (as used by
`ErrorX.Attrs`, `Error` and `MarshalJSON`). -/
def validIterOrder (e : ErrorX) (ord : List (GoStr × GoStr)) : Prop :=
  List.Perm ord e.attrs

/-! ### String lemmas -/

theorem pfx_length : ∀ p s : GoStr, pfx p s = true → p.length ≤ s.length
  | [], s, _ => by simp
  | _ :: _, [], h => by simp [pfx] at h
  | a :: as, b :: bs, h => by
    simp only [pfx, Bool.and_eq_true] at h
    simpa using pfx_length as bs h.2

theorem pfx_append_self : ∀ p t : GoStr, pfx p (p ++ t) = true
  | [], _ => rfl
  | a :: as, t => by simp [pfx, pfx_append_self as t]

theorem findOcc_bound : ∀ (pat s : GoStr) (i : Nat),
    findOcc pat s = some i → i + pat.length ≤ s.length
  | pat, [], i, h => by
    cases pat with
    | nil => simp [findOcc] at h; omega
    | cons a as => simp [findOcc, pfx] at h
  | pat, c :: rest, i, h => by
    by_cases hp : pfx pat (c :: rest) = true
    · have := pfx_length pat (c :: rest) hp
      simp [findOcc, hp] at h
      omega
    · simp [findOcc, hp] at h
      obtain ⟨j, hj, rfl⟩ := h
      have := findOcc_bound pat rest j hj
      simp; omega

theorem containsB_false_iff (p s : GoStr) :
    containsB p s = false ↔ findOcc p s = none := by
  unfold containsB
  cases findOcc p s <;> simp

theorem splitGoF_of_none (f : Nat) (sep s : GoStr) (h : findOcc sep s = none) :
    splitGoF f sep s = [s] := by
  cases f <;> simp [splitGoF, h]

theorem findOcc_nil_of_ne (sep : GoStr) (hsep : sep ≠ []) :
    findOcc sep [] = none := by
  cases sep with
  | nil => exact absurd rfl hsep
  | cons a as => simp [findOcc, pfx]

theorem splitGoF_congr (sep : GoStr) (hsep : sep ≠ []) :
    ∀ (f₁ f₂ : Nat) (s : GoStr), s.length ≤ f₁ → s.length ≤ f₂ →
      splitGoF f₁ sep s = splitGoF f₂ sep s
  | 0, f₂, s, h₁, _ => by
    have hs : s = [] := by cases s <;> simp_all
    subst hs
    rw [splitGoF_of_none _ _ _ (findOcc_nil_of_ne sep hsep)]
    cases f₂ <;> simp [splitGoF, findOcc_nil_of_ne sep hsep]
  | f₁ + 1, 0, s, _, h₂ => by
    have hs : s = [] := by cases s <;> simp_all
    subst hs
    rw [splitGoF_of_none _ _ _ (findOcc_nil_of_ne sep hsep)]
    simp [splitGoF]
  | f₁ + 1, f₂ + 1, s, h₁, h₂ => by
    simp only [splitGoF]
    cases hf : findOcc sep s with
    | none => rfl
    | some i =>
      have hb := findOcc_bound sep s i hf
      have hsep1 : 1 ≤ sep.length := by
        cases sep with
        | nil => exact absurd rfl hsep
        | cons a as => simp
      have hdrop : (s.drop (i + sep.length)).length ≤ f₁ := by
        simp [List.length_drop]; omega
      have hdrop2 : (s.drop (i + sep.length)).length ≤ f₂ := by
        simp [List.length_drop]; omega
      dsimp only
      rw [splitGoF_congr sep hsep f₁ f₂ _ hdrop hdrop2]

theorem containsB_append_right : ∀ (p s t : GoStr),
    containsB p t = true → containsB p (s ++ t) = true
  | p, [], t, h => by simpa
  | p, c :: s', t, h => by
    have ih := containsB_append_right p s' t h
    simp only [containsB, List.cons_append, findOcc, List.append_eq]
    by_cases hp : pfx p (c :: (s' ++ t)) = true
    · simp [hp]
    · simp only [hp, if_false]
      simp only [containsB] at ih
      cases hf : findOcc p (s' ++ t) with
      | none => rw [hf] at ih; simp at ih
      | some j => simp [hf]

theorem containsB_of_pfx (p t : GoStr) (h : pfx p t = true) :
    containsB p t = true := by
  cases t with
  | nil =>
    cases p with
    | nil => simp [containsB, findOcc, pfx]
    | cons a as => simp [pfx] at h
  | cons c rest => simp [containsB, findOcc, h]

theorem trimSuffix_append (suf x : GoStr) : trimSuffix suf (x ++ suf) = x := by
  unfold trimSuffix
  rw [List.reverse_append, if_pos (pfx_append_self suf.reverse x.reverse)]
  simp

theorem trimSuffix_eq_of_eq (suf x s : GoStr) (h : s = x ++ suf) :
    trimSuffix suf s = x := by
  rw [h, trimSuffix_append]

theorem findOcc_cons (p : GoStr) (c : Char) (rest : GoStr) :
    findOcc p (c :: rest) =
      if pfx p (c :: rest) = true then some 0
      else (findOcc p rest).map (· + 1) := by
  simp only [findOcc]

theorem findOcc_cons_none (p : GoStr) (c : Char) (rest : GoStr) :
    findOcc p (c :: rest) = none ↔
      ¬ pfx p (c :: rest) = true ∧ findOcc p rest = none := by
  rw [findOcc_cons]
  by_cases hp : pfx p (c :: rest) = true
  · simp [hp]
  · rw [if_neg hp]
    constructor
    · intro h
      refine ⟨hp, ?_⟩
      cases hf : findOcc p rest with
      | none => rfl
      | some j => rw [hf] at h; simp at h
    · intro h
      rw [h.2]; rfl

theorem findOcc_append_two (u v : Char) (huv : u ≠ v) :
    ∀ (a rest : GoStr), findOcc [u, v] a = none →
      findOcc [u, v] (a ++ u :: v :: rest) = some a.length
  | [], rest, _ => by simp [findOcc, pfx]
  | c :: a', rest, h => by
    rw [findOcc_cons_none] at h
    obtain ⟨hps, ha'⟩ := h
    have hpf : ¬ pfx [u, v] (c :: (a' ++ u :: v :: rest)) = true := by
      intro hp
      cases a' with
      | nil =>
        simp only [List.nil_append, pfx, Bool.and_eq_true, beq_iff_eq] at hp
        exact huv hp.2.1.symm
      | cons z a'' =>
        simp only [List.cons_append, pfx, Bool.and_eq_true] at hp
        simp only [pfx, Bool.and_eq_true] at hps
        exact hps ⟨hp.1, hp.2.1, by trivial⟩
    rw [List.cons_append, findOcc_cons, if_neg hpf,
      findOcc_append_two u v huv a' rest ha']
    simp

theorem findOcc_append_none₂ (x y : Char) :
    ∀ (s t : GoStr), findOcc [x, y] s = none → findOcc [x, y] t = none →
      ¬(s.getLast? = some x ∧ t.head? = some y) →
      findOcc [x, y] (s ++ t) = none
  | [], t, _, ht, _ => by simpa
  | [c], t, hs, ht, hb => by
    have hpf : ¬ pfx [x, y] (c :: t) = true := by
      intro hp
      cases t with
      | nil => simp [pfx] at hp
      | cons d t' =>
        simp only [pfx, Bool.and_eq_true, beq_iff_eq] at hp
        exact hb ⟨by simp [hp.1], by simp [hp.2.1]⟩
    have hct : ([c] : GoStr) ++ t = c :: t := by simp
    rw [hct, findOcc_cons_none]
    exact ⟨hpf, ht⟩
  | c :: c' :: s', t, hs, ht, hb => by
    rw [findOcc_cons_none] at hs
    obtain ⟨hps, hs'⟩ := hs
    have hpf : ¬ pfx [x, y] (c :: (c' :: s' ++ t)) = true := by
      intro hp
      simp only [List.cons_append, pfx, Bool.and_eq_true] at hp
      simp only [pfx, Bool.and_eq_true] at hps
      exact hps ⟨hp.1, hp.2.1, by trivial⟩
    have ih := findOcc_append_none₂ x y (c' :: s') t hs' ht
      (by simpa [List.getLast?_cons_cons] using hb)
    rw [List.cons_append, findOcc_cons_none]
    exact ⟨hpf, ih⟩

theorem splitGoF_succ_occ (f : Nat) (sep s : GoStr) (i : Nat)
    (h : findOcc sep s = some i) :
    splitGoF (f + 1) sep s = s.take i :: splitGoF f sep (s.drop (i + sep.length)) := by
  simp [splitGoF, h]

theorem splitGo_cons (u v : Char) (huv : u ≠ v) (a rest : GoStr)
    (ha : findOcc [u, v] a = none) :
    splitGo [u, v] (a ++ [u, v] ++ rest) = a :: splitGo [u, v] rest := by
  have hocc : findOcc [u, v] (a ++ [u, v] ++ rest) = some a.length := by
    have h2 : a ++ [u, v] ++ rest = a ++ u :: v :: rest := by simp
    rw [h2]
    exact findOcc_append_two u v huv a rest ha
  unfold splitGo
  obtain ⟨k, hk⟩ : ∃ k, (a ++ [u, v] ++ rest).length = k + 1 :=
    ⟨a.length + 1 + rest.length, by simp; omega⟩
  rw [hk, splitGoF_succ_occ k [u, v] _ a.length hocc]
  have htake : (a ++ [u, v] ++ rest).take a.length = a := by
    rw [List.append_assoc, List.take_append_of_le_length (by simp)]
    simp
  have hdrop : (a ++ [u, v] ++ rest).drop (a.length + 2) = rest := by
    have : a.length + 2 = (a ++ [u, v]).length := by simp
    rw [this, List.drop_left]
  rw [htake]
  have hlen2 : ([u, v] : GoStr).length = 2 := rfl
  rw [hlen2, hdrop]
  rw [splitGoF_congr [u, v] (by simp) k rest.length rest (by simp at hk; omega) le_rfl]

theorem flatten_map_sep (sep : GoStr) : ∀ l : List GoStr, l ≠ [] →
    (l.map (fun s => s ++ sep)).flatten = sepJoin sep l ++ sep
  | [x], _ => by simp [sepJoin]
  | x :: y :: t, _ => by
    have ih := flatten_map_sep sep (y :: t) (by simp)
    rw [List.map_cons, List.flatten_cons, ih]
    simp [sepJoin, List.append_assoc]

/-! ### Container lemmas -/

theorem appendOne_kind (e : ErrorX) (x : GoErr) : (appendOne e x).kind = e.kind := by
  unfold appendOne; split <;> rfl

theorem appendOne_attrs (e : ErrorX) (x : GoErr) :
    (appendOne e x).attrs = e.attrs := by
  unfold appendOne; split <;> rfl

theorem appendOne_len (e : ErrorX) (x : GoErr) :
    (appendOne e x).errs.length ≤ e.errs.length + 1 := by
  unfold appendOne; split
  · omega
  · simp

theorem append_kind : ∀ (l : List GoErr) (e : ErrorX),
    (e.append l).kind = e.kind
  | [], _ => rfl
  | x :: l', e => by
    have ih := append_kind l' (appendOne e x)
    simp only [ErrorX.append, List.foldl_cons] at ih ⊢
    rw [ih, appendOne_kind]

theorem append_attrs : ∀ (l : List GoErr) (e : ErrorX),
    (e.append l).attrs = e.attrs
  | [], _ => rfl
  | x :: l', e => by
    have ih := append_attrs l' (appendOne e x)
    simp only [ErrorX.append, List.foldl_cons] at ih ⊢
    rw [ih, appendOne_attrs]

theorem append_len : ∀ (l : List GoErr) (e : ErrorX),
    (e.append l).errs.length ≤ e.errs.length + l.length
  | [], _ => by simp [ErrorX.append]
  | x :: l', e => by
    have ih := append_len l' (appendOne e x)
    have h1 := appendOne_len e x
    simp only [ErrorX.append, List.foldl_cons] at ih ⊢
    simp only [List.length_cons]
    omega

theorem append_same (e : ErrorX) (x : GoErr) :
    (e.append [x]).append [x] = e.append [x] := by
  simp only [ErrorX.append, List.foldl_cons, List.foldl_nil]
  by_cases h : goErrError x ∈ e.uniqErrs
  · simp [appendOne, h]
  · simp [appendOne, h]

theorem inv_appendOne (e : ErrorX) (x : GoErr) (h : inv e) :
    inv (appendOne e x) := by
  obtain ⟨h1, h2, h3⟩ := h
  unfold appendOne
  by_cases hm : goErrError x ∈ e.uniqErrs
  · simpa [hm] using ⟨h1, h2, h3⟩
  · rw [if_neg hm]
    refine ⟨?_, ?_, ?_⟩
    · simp only [List.map_append, List.map_cons, List.map_nil]
      rw [List.nodup_append]
      refine ⟨h1, List.nodup_singleton _, ?_⟩
      intro a ha hb
      simp only [List.mem_singleton] at hb
      subst hb
      exact hm (h3 _ ha)
    · intro s hs
      simp only [List.mem_append, List.mem_singleton] at hs
      simp only [List.map_append, List.map_cons, List.map_nil, List.mem_append,
        List.mem_singleton]
      cases hs with
      | inl hl => exact Or.inl (h2 s hl)
      | inr hr => exact Or.inr hr
    · intro s hs
      simp only [List.map_append, List.map_cons, List.map_nil, List.mem_append,
        List.mem_singleton] at hs
      simp only [List.mem_append, List.mem_singleton]
      cases hs with
      | inl hl => exact Or.inl (h3 s hl)
      | inr hr => exact Or.inr hr

theorem inv_append : ∀ (l : List GoErr) (e : ErrorX), inv e → inv (e.append l)
  | [], _, h => h
  | x :: l', e, h => by
    have ih := inv_append l' (appendOne e x) (inv_appendOne e x h)
    simpa only [ErrorX.append, List.foldl_cons] using ih

theorem inv_empty : inv ErrorX.empty := by decide

/-! ### Decomposition-engine lemmas -/

theorem parse_zero (tgt : ErrorX) (err : GoErr) : parseErrorF 0 tgt err = tgt := rfl

theorem parse_guard (tgt : ErrorX) (err : GoErr) (fuel : Nat)
    (h : MaxErrorDepth ≤ tgt.errs.length) : parseErrorF fuel tgt err = tgt := by
  cases fuel with
  | zero => rfl
  | succ f => simp [parseErrorF, h]

theorem parse_basic_leaf (f : Nat) (tgt : ErrorX) (s : GoStr)
    (hlen : tgt.errs.length < MaxErrorDepth)
    (h1 : containsB DelimArrow s = false)
    (h2 : containsB DelimSemiColon s = false)
    (h3 : containsB MultiLineErrPfx s = false) :
    parseErrorF (f + 1) tgt (.basic s) = tgt.append [.basic s] := by
  have h1' : containsB DelimArrowSerialized s = false := h1
  have hg : ¬ MaxErrorDepth ≤ tgt.errs.length := by omega
  simp [parseErrorF, hg, h1, h1', h2, h3]

theorem foldl_errs_bound (step : ErrorX → GoStr → ErrorX)
    (h : ∀ (acc : ErrorX) (p : GoStr),
      (step acc p).errs.length ≤ max acc.errs.length MaxErrorDepth) :
    ∀ (parts : List GoStr) (tgt : ErrorX),
      (parts.foldl step tgt).errs.length ≤ max tgt.errs.length MaxErrorDepth
  | [], tgt => Nat.le_max_left _ _
  | p :: ps, tgt => by
    have h1 := h tgt p
    have h2 := foldl_errs_bound step h ps (step tgt p)
    simp only [List.foldl_cons]
    exact le_trans h2 (max_le h1 (Nat.le_max_right _ _))

theorem foldl_inv (step : ErrorX → GoStr → ErrorX)
    (h : ∀ (acc : ErrorX) (p : GoStr), inv acc → inv (step acc p)) :
    ∀ (parts : List GoStr) (tgt : ErrorX),
      inv tgt → inv (parts.foldl step tgt)
  | [], _, hi => hi
  | p :: ps, tgt, hi => by
    simp only [List.foldl_cons]
    exact foldl_inv step h ps (step tgt p) (h tgt p hi)

theorem parseF_noBatch_bound : ∀ (fuel : Nat) (err : GoErr) (tgt : ErrorX),
    noBatch err = true →
    (parseErrorF fuel tgt err).errs.length ≤ max tgt.errs.length MaxErrorDepth
  | 0, _, tgt, _ => Nat.le_max_left _ _
  | fuel + 1, err, tgt, h => by
    by_cases hg : MaxErrorDepth ≤ tgt.errs.length
    · rw [parse_guard tgt err _ hg]
      exact Nat.le_max_left _ _
    · have hstep : ∀ (acc : ErrorX) (p : GoStr),
          (parseErrorF fuel acc (.basic (trimSpace p))).errs.length ≤
            max acc.errs.length MaxErrorDepth :=
        fun acc p => parseF_noBatch_bound fuel (.basic (trimSpace p)) acc rfl
      match err with
      | .basic s =>
        simp only [parseErrorF, if_neg hg]
        split
        · exact foldl_errs_bound _ hstep _ tgt
        · split
          · exact foldl_errs_bound _ hstep _ tgt
          · split
            · exact foldl_errs_bound _ hstep _ tgt
            · split
              · exact foldl_errs_bound _ hstep _ tgt
              · have := append_len [GoErr.basic s] tgt
                simp only [List.length_cons, List.length_nil] at this
                have : (tgt.append [GoErr.basic s]).errs.length ≤ MaxErrorDepth := by
                  omega
                exact le_trans this (Nat.le_max_right _ _)
      | .wrapped m c =>
        simp only [parseErrorF, if_neg hg]
        exact parseF_noBatch_bound fuel c tgt (by simpa [noBatch] using h)
      | .wrappedNone m =>
        simp only [parseErrorF, if_neg hg]
        exact parseF_noBatch_bound fuel (.basic m) tgt rfl
      | .causeErr m cause =>
        simp only [parseErrorF, if_neg hg]
        have hc : (tgt.append [cause]).errs.length ≤ MaxErrorDepth := by
          have := append_len [cause] tgt
          simp only [List.length_cons, List.length_nil] at this
          omega
        have := parseF_noBatch_bound fuel
          (.basic (replaceGo (goErrError cause) [] m)) (tgt.append [cause]) rfl
        exact le_trans this (max_le (le_trans hc (Nat.le_max_right _ _))
          (Nat.le_max_right _ _))
      | .errorX k a es => simp [noBatch] at h
      | .joined m children => simp [noBatch] at h

theorem inv_kind_update (e : ErrorX) (k : Option GoStr) (h : inv e) :
    inv { e with kind := k } := h

theorem parseF_inv : ∀ (fuel : Nat) (tgt : ErrorX) (err : GoErr),
    inv tgt → inv (parseErrorF fuel tgt err)
  | 0, _, _, hi => hi
  | fuel + 1, tgt, err, hi => by
    by_cases hg : MaxErrorDepth ≤ tgt.errs.length
    · rw [parse_guard tgt err _ hg]; exact hi
    · have hstep : ∀ (acc : ErrorX) (p : GoStr), inv acc →
          inv (parseErrorF fuel acc (.basic (trimSpace p))) :=
        fun acc p hia => parseF_inv fuel acc (.basic (trimSpace p)) hia
      match err with
      | .basic s =>
        simp only [parseErrorF, if_neg hg]
        split
        · exact foldl_inv _ hstep _ tgt hi
        · split
          · exact foldl_inv _ hstep _ tgt hi
          · split
            · exact foldl_inv _ hstep _ tgt hi
            · split
              · exact foldl_inv _ hstep _ tgt hi
              · exact inv_append _ tgt hi
      | .errorX k a es =>
        simp only [parseErrorF, if_neg hg]
        exact inv_kind_update _ _ (inv_append _ tgt hi)
      | .joined m children =>
        simp only [parseErrorF, if_neg hg]
        match children with
        | .nil => exact parseF_inv fuel tgt (.basic m) hi
        | .cons c cs => exact inv_append _ tgt hi
      | .wrapped m c =>
        simp only [parseErrorF, if_neg hg]
        exact parseF_inv fuel tgt c hi
      | .wrappedNone m =>
        simp only [parseErrorF, if_neg hg]
        exact parseF_inv fuel tgt (.basic m) hi
      | .causeErr m cause =>
        simp only [parseErrorF, if_neg hg]
        exact parseF_inv fuel (tgt.append [cause]) _ (inv_append _ tgt hi)

theorem errSize_pos (err : GoErr) : 1 ≤ errSize err := by
  cases err <;> simp [errSize]

theorem parse_wrapped (tgt : ErrorX) (m : GoStr) (c : GoErr) :
    parseError tgt (.wrapped m c) = parseError tgt c := by
  unfold parseError
  by_cases hg : MaxErrorDepth ≤ tgt.errs.length
  · rw [parse_guard tgt _ _ hg, parse_guard tgt _ _ hg]
  · have hsz : errSize (GoErr.wrapped m c) = errSize c + 1 := rfl
    rw [hsz]
    simp only [parseErrorF, if_neg hg]

theorem parse_wrapChain (tgt : ErrorX) :
    ∀ (msgs : List GoStr) (base : GoErr),
      parseError tgt (wrapChain msgs base) = parseError tgt base
  | [], _ => rfl
  | m :: ms, base => by
    have h1 : wrapChain (m :: ms) base = .wrapped m (wrapChain ms base) := rfl
    rw [h1, parse_wrapped, parse_wrapChain tgt ms base]

/-! ### Rendering and round-trip lemmas -/

theorem appendOne_basic (e : ErrorX) (x : GoStr) (h : x ∉ e.uniqErrs) :
    appendOne e (.basic x) =
      ⟨e.kind, e.attrs, e.errs ++ [.basic x], e.uniqErrs ++ [x]⟩ := by
  simp [appendOne, goErrError, h]

theorem boundary_left (x y : Char) (s t : GoStr) (h : s.getLast? ≠ some x) :
    ¬(s.getLast? = some x ∧ t.head? = some y) := fun hc => h hc.1

theorem boundary_right (x y : Char) (s t : GoStr) (h : t.head? ≠ some y) :
    ¬(s.getLast? = some x ∧ t.head? = some y) := fun hc => h hc.2

theorem arrowFree_render3 (a b c : GoStr)
    (ha : containsB DelimArrow a = false) (hb : containsB DelimArrow b = false)
    (hc : containsB DelimArrow c = false) :
    containsB DelimArrow
      (a ++ (DelimSemiColon ++ (b ++ (DelimSemiColon ++ c)))) = false := by
  rw [containsB_false_iff] at ha hb hc ⊢
  have hsep : findOcc DelimArrow DelimSemiColon = none := by decide
  have h1 : findOcc DelimArrow (DelimSemiColon ++ c) = none :=
    findOcc_append_none₂ '<' '-' DelimSemiColon c hsep hc
      (boundary_left '<' '-' _ _ (by decide))
  have h2 : findOcc DelimArrow (b ++ (DelimSemiColon ++ c)) = none :=
    findOcc_append_none₂ '<' '-' b (DelimSemiColon ++ c) hb h1
      (boundary_right '<' '-' _ _ (by simp [DelimSemiColon]))
  have h3 : findOcc DelimArrow (DelimSemiColon ++ (b ++ (DelimSemiColon ++ c))) = none :=
    findOcc_append_none₂ '<' '-' DelimSemiColon _ hsep h2
      (boundary_left '<' '-' _ _ (by decide))
  exact findOcc_append_none₂ '<' '-' a _ ha h3
    (boundary_right '<' '-' _ _ (by simp [DelimSemiColon]))

theorem semiOcc_render3 (a b c : GoStr) :
    containsB DelimSemiColon
      (a ++ (DelimSemiColon ++ (b ++ (DelimSemiColon ++ c)))) = true := by
  apply containsB_append_right
  exact containsB_of_pfx _ _ (pfx_append_self DelimSemiColon _)

theorem splitGo_render3 (a b c : GoStr)
    (ha : containsB DelimSemiColon a = false)
    (hb : containsB DelimSemiColon b = false)
    (hc : containsB DelimSemiColon c = false) :
    splitGo DelimSemiColon
      (a ++ (DelimSemiColon ++ (b ++ (DelimSemiColon ++ c)))) = [a, b, c] := by
  rw [containsB_false_iff] at ha hb hc
  have hne : (';' : Char) ≠ ' ' := by decide
  rw [show (DelimSemiColon : GoStr) = [';', ' '] from rfl] at ha hb hc ⊢
  have e1 : a ++ ([';', ' '] ++ (b ++ ([';', ' '] ++ c)))
      = a ++ [';', ' '] ++ (b ++ [';', ' '] ++ c) := by
    simp [List.append_assoc]
  rw [e1, splitGo_cons ';' ' ' hne a _ ha, splitGo_cons ';' ' ' hne b c hb]
  rw [show splitGo [';', ' '] c = [c] from splitGoF_of_none _ _ _ hc]

theorem parse_basic_semi (f : Nat) (tgt : ErrorX) (s : GoStr)
    (hlen : tgt.errs.length < MaxErrorDepth)
    (h1 : containsB DelimArrow s = false)
    (h2 : containsB DelimSemiColon s = true) :
    parseErrorF (f + 1) tgt (.basic s) =
      (splitGo DelimSemiColon s).foldl
        (fun acc part => parseErrorF f acc (.basic (trimSpace part))) tgt := by
  have h1' : containsB DelimArrowSerialized s = false := h1
  have hg : ¬ MaxErrorDepth ≤ tgt.errs.length := by omega
  simp [parseErrorF, hg, h1, h1', h2]

theorem render3_eq (a b c : GoStr) (u : List GoStr) :
    ErrorX.error ⟨none, [], [.basic a, .basic b, .basic c], u⟩ =
      a ++ (ErrorSeperator ++ (b ++ (ErrorSeperator ++ c))) := by
  unfold ErrorX.error renderXStr
  apply trimSuffix_eq_of_eq
  simp [kindPartStr, attrsPartStr, goErrError, List.append_assoc]

theorem classify_render3 (a b c : GoStr)
    (hda : delimFree a = true) (hdb : delimFree b = true) (hdc : delimFree c = true)
    (hta : trimSpace a = a) (htb : trimSpace b = b) (htc : trimSpace c = c)
    (hab : a ≠ b) (hac : a ≠ c) (hbc : b ≠ c) :
    (parseError ErrorX.empty
      (.basic (a ++ (ErrorSeperator ++ (b ++ (ErrorSeperator ++ c)))))).errs
      = [.basic a, .basic b, .basic c] := by
  simp only [delimFree, Bool.and_eq_true, Bool.not_eq_true'] at hda hdb hdc
  obtain ⟨⟨haA, haS⟩, haM⟩ := hda
  obtain ⟨⟨hbA, hbS⟩, hbM⟩ := hdb
  obtain ⟨⟨hcA, hcS⟩, hcM⟩ := hdc
  have harrow : containsB DelimArrow
      (a ++ (ErrorSeperator ++ (b ++ (ErrorSeperator ++ c)))) = false :=
    arrowFree_render3 a b c haA hbA hcA
  have hsemi : containsB DelimSemiColon
      (a ++ (ErrorSeperator ++ (b ++ (ErrorSeperator ++ c)))) = true :=
    semiOcc_render3 a b c
  have hsplit : splitGo DelimSemiColon
      (a ++ (ErrorSeperator ++ (b ++ (ErrorSeperator ++ c)))) = [a, b, c] :=
    splitGo_render3 a b c haS hbS hcS
  unfold parseError
  have hk : errSize (GoErr.basic
      (a ++ (ErrorSeperator ++ (b ++ (ErrorSeperator ++ c)))))
      = (a ++ (ErrorSeperator ++ (b ++ (ErrorSeperator ++ c)))).length + 1 := rfl
  rw [hk, parse_basic_semi _ ErrorX.empty _ (by decide) harrow hsemi, hsplit]
  simp only [List.foldl_cons, List.foldl_nil]
  rw [hta, htb, htc]
  have hlen : (a ++ (ErrorSeperator ++ (b ++ (ErrorSeperator ++ c)))).length
      = a.length + b.length + c.length + 4 := by
    simp [ErrorSeperator]
    omega
  obtain ⟨j, hj⟩ : ∃ j, (a ++ (ErrorSeperator ++ (b ++ (ErrorSeperator ++ c)))).length
      = j + 1 := ⟨a.length + b.length + c.length + 3, by omega⟩
  rw [hj]
  rw [parse_basic_leaf j ErrorX.empty a (by decide) haA haS haM]
  have h1 : ErrorX.empty.append [.basic a] = ⟨none, [], [.basic a], [a]⟩ := by
    simp [ErrorX.append, appendOne, goErrError, ErrorX.empty]
  rw [h1]
  rw [parse_basic_leaf j _ b (by norm_num [MaxErrorDepth]) hbA hbS hbM]
  have h2 : (⟨none, [], [.basic a], [a]⟩ : ErrorX).append [.basic b]
      = ⟨none, [], [.basic a, .basic b], [a, b]⟩ := by
    simp [ErrorX.append, appendOne, goErrError, Ne.symm hab]
  rw [h2]
  rw [parse_basic_leaf j _ c (by norm_num [MaxErrorDepth]) hcA hcS hcM]
  have h3 : (⟨none, [], [.basic a, .basic b], [a, b]⟩ : ErrorX).append [.basic c]
      = ⟨none, [], [.basic a, .basic b, .basic c], [a, b, c]⟩ := by
    simp [ErrorX.append, appendOne, goErrError, Ne.symm hac, Ne.symm hbc]
  rw [h3]

theorem render_nonempty (e : ErrorX) (h : e.errs ≠ []) :
    ErrorX.error e = kindPartStr e.kind ++ attrsPartStr e.attrs ++
      sepJoin ErrorSeperator (e.errs.map goErrError) := by
  unfold ErrorX.error renderXStr
  have hmap : e.errs.map goErrError ≠ [] := by simpa using h
  rw [flatten_map_sep ErrorSeperator _ hmap]
  apply trimSuffix_eq_of_eq
  simp [List.append_assoc]

theorem setAttrOne_errs (e : ErrorX) (x : GoStr × GoStr) :
    (setAttrOne e x).errs = e.errs ∧ (setAttrOne e x).uniqErrs = e.uniqErrs := by
  unfold setAttrOne
  split <;> exact ⟨rfl, rfl⟩

theorem setAttr_errs : ∀ (l : List (GoStr × GoStr)) (e : ErrorX),
    (e.setAttr l).errs = e.errs ∧ (e.setAttr l).uniqErrs = e.uniqErrs
  | [], _ => ⟨rfl, rfl⟩
  | x :: l', e => by
    have ih := setAttr_errs l' (setAttrOne e x)
    have h1 := setAttrOne_errs e x
    simp only [ErrorX.setAttr, List.foldl_cons] at ih ⊢
    exact ⟨ih.1.trans h1.1, ih.2.trans h1.2⟩

theorem inv_of_fields (e e' : ErrorX) (h1 : e'.errs = e.errs)
    (h2 : e'.uniqErrs = e.uniqErrs) (h : inv e) : inv e' := by
  unfold inv at *
  rw [h1, h2]
  exact h

theorem inv_setAttr (e : ErrorX) (l : List (GoStr × GoStr)) (h : inv e) :
    inv (e.setAttr l) :=
  inv_of_fields e _ (setAttr_errs l e).1 (setAttr_errs l e).2 h

/-! ### Claim theorems -/

/-- Claim C1, counterexample: classifying a joined error with four distinct
children appends all four children in one unguarded batch, so the resulting
container holds 4 > MaxErrorDepth leaves; the claimed invariant
`len(leaves) ≤ MaxErrorDepth` fails. -/
theorem c1_counterexample :
    Option.map (fun x => x.errs.length) (FromError (some (.joined ['m']
      (.cons (.basic ['a']) (.cons (.basic ['b']) (.cons (.basic ['c'])
        (.cons (.basic ['d']) .nil))))))) = some 4 ∧ ¬ 4 ≤ MaxErrorDepth :=
  ⟨by decide, by decide⟩

/-- Claim C1, amended: the depth bound holds for decomposition of errors
that trigger no batch merge (no already-canonical `ErrorX` and no
multi-child joined error): classification then never pushes the leaf
count above `max` of the initial count and `MaxErrorDepth`.  Batch merges
(ErrorX merge, joined children) and the direct mutators `append`/`Msgf`
are unguarded and can exceed the bound. -/
theorem c1_theorem (tgt : ErrorX) (err : GoErr) (h : noBatch err = true) :
    (parseError tgt err).errs.length ≤ max tgt.errs.length MaxErrorDepth :=
  parseF_noBatch_bound (errSize err) err tgt h

/-- Witness for C1 at a concrete input. -/
theorem c1_witness :
    noBatch (.basic ['x']) = true ∧
      (parseError ErrorX.empty (.basic ['x'])).errs.length ≤
        max ErrorX.empty.errs.length MaxErrorDepth :=
  ⟨by decide, c1_theorem ErrorX.empty (.basic ['x']) (by decide)⟩

/-- Claim C2, counterexample: `Error()` on the container classified from
`"disk full <- write failed <- save config"` does not reproduce the
original arrow-joined string (it joins the reversed leaves with `"; "`). -/
theorem c2_counterexample :
    Option.map ErrorX.error (FromError (some
        (.basic "disk full <- write failed <- save config".toList))) ≠
      some "disk full <- write failed <- save config".toList := by decide

/-- Claim C2, amended: classifying the plain error
`"disk full <- write failed <- save config"` yields the leaves
`["save config", "write failed", "disk full"]` in that order, and `Error()`
on the result returns `"save config; write failed; disk full"` (the leaves
joined by the default separator, not the original string). -/
theorem c2_theorem :
    Option.map (fun x => x.errs.map goErrError) (FromError (some
        (.basic "disk full <- write failed <- save config".toList)))
      = some ["save config".toList, "write failed".toList, "disk full".toList] ∧
    Option.map ErrorX.error (FromError (some
        (.basic "disk full <- write failed <- save config".toList)))
      = some "save config; write failed; disk full".toList :=
  ⟨by decide, by decide⟩

/-- Claim C3, counterexample: the remainder leaf produced by the
cause-plus-remainder probe keeps its leading whitespace, so the leaves are
not `["timeout", "while connecting to host"]`. -/
theorem c3_counterexample :
    Option.map (fun x => x.errs.map goErrError) (FromError (some
      (.causeErr "timeout while connecting to host".toList
        (.basic "timeout".toList)))) ≠
      some ["timeout".toList, "while connecting to host".toList] := by decide

/-- Claim C3, amended: classifying a cause-style error with cause
`"timeout"` and full message `"timeout while connecting to host"` yields
the leaves `["timeout", " while connecting to host"]`: the remainder is
the full message with the cause text removed and is appended untrimmed,
keeping its leading space. -/
theorem c3_theorem :
    Option.map (fun x => x.errs.map goErrError) (FromError (some
      (.causeErr "timeout while connecting to host".toList
        (.basic "timeout".toList))))
      = some ["timeout".toList, " while connecting to host".toList] := by decide

/-- Claim C4, counterexample: a linear chain of four single-child wrapped
errors with distinct messages classifies to a single leaf (the innermost
error), not to MaxErrorDepth = 3 leaves. -/
theorem c4_counterexample :
    Option.map (fun x => x.errs.length) (FromError (some
      (.wrapped "m1".toList (.wrapped "m2".toList (.wrapped "m3".toList
        (.basic "m4".toList)))))) = some 1 ∧ (1 : Nat) ≠ MaxErrorDepth :=
  ⟨by decide, by decide⟩

/-- Claim C4, amended: the single-child unwrap probe discards the wrapper
messages entirely, so classifying any linear chain of single-child wrapped
errors equals classifying its innermost error; in particular a chain of
four distinct wrapper messages around a plain leaf yields exactly one
leaf, not MaxErrorDepth. -/
theorem c4_theorem :
    (∀ (msgs : List GoStr) (base : GoErr),
      FromError (some (wrapChain msgs base)) = FromError (some base)) ∧
    Option.map (fun x => x.errs.length) (FromError (some
      (wrapChain ["m1".toList, "m2".toList, "m3".toList] (.basic "m4".toList))))
      = some 1 := by
  constructor
  · intro msgs base
    simp only [FromError]
    rw [parse_wrapChain]
  · decide

/-- Claim C5, counterexample: with the leaf `" x"` (leading space), the
container renders to `" x; y; z"`, but classifying that string trims each
split part, reconstructing `["x", "y", "z"]` rather than the original
leaves `[" x", "y", "z"]`: the round trip fails for leaves that are not
whitespace-trim-stable. -/
theorem c5_counterexample :
    ErrorX.error (ErrorX.empty.append [.basic " x".toList, .basic ['y'], .basic ['z']])
      = " x; y; z".toList ∧
    Option.map (fun x => x.errs.map goErrError)
        (FromError (some (.basic " x; y; z".toList)))
      = some [['x'], ['y'], ['z']] ∧
    some [['x'], ['y'], ['z']] ≠
      some [" x".toList, (['y'] : GoStr), (['z'] : GoStr)] :=
  ⟨by decide, by decide, by decide⟩

/-- Claim C5, amended: for pairwise-distinct, delimiter-free,
whitespace-trim-stable leaf strings `a`, `b`, `c` in an untagged,
attribute-free container, `Error()` renders `a ++ "; " ++ b ++ "; " ++ c`
and classifying a plain error built from that string reconstructs the
leaves `[a, b, c]` in the same order. -/
theorem c5_theorem (a b c : GoStr)
    (hda : delimFree a = true) (hdb : delimFree b = true) (hdc : delimFree c = true)
    (hta : trimSpace a = a) (htb : trimSpace b = b) (htc : trimSpace c = c)
    (hab : a ≠ b) (hac : a ≠ c) (hbc : b ≠ c) :
    ErrorX.error (ErrorX.empty.append [.basic a, .basic b, .basic c])
        = a ++ (ErrorSeperator ++ (b ++ (ErrorSeperator ++ c))) ∧
    Option.map (fun x => x.errs.map goErrError)
        (FromError (some (.basic
          (a ++ (ErrorSeperator ++ (b ++ (ErrorSeperator ++ c)))))))
      = some [a, b, c] := by
  constructor
  · have hE : ErrorX.empty.append [.basic a, .basic b, .basic c]
        = ⟨none, [], [.basic a, .basic b, .basic c], [a, b, c]⟩ := by
      simp [ErrorX.append, appendOne, goErrError, ErrorX.empty,
        Ne.symm hab, Ne.symm hac, Ne.symm hbc]
    rw [hE, render3_eq]
  · simp only [FromError, Option.map_some']
    rw [classify_render3 a b c hda hdb hdc hta htb htc hab hac hbc]
    simp [goErrError]

/-- Witness for C5 at the concrete leaves `x`, `y`, `z`. -/
theorem c5_witness :
    ErrorX.error (ErrorX.empty.append [.basic ['x'], .basic ['y'], .basic ['z']])
        = ['x'] ++ (ErrorSeperator ++ (['y'] ++ (ErrorSeperator ++ ['z']))) ∧
    Option.map (fun x => x.errs.map goErrError)
        (FromError (some (.basic
          (['x'] ++ (ErrorSeperator ++ (['y'] ++ (ErrorSeperator ++ ['z'])))))))
      = some [['x'], ['y'], ['z']] :=
  c5_theorem ['x'] ['y'] ['z'] (by decide) (by decide) (by decide) (by decide)
    (by decide) (by decide) (by decide) (by decide) (by decide)

/-- Claim C6: `FromError` of nil is nil, and classification of any non-nil
error is total and always produces a container: it has no error outcome. -/
theorem c6_theorem :
    FromError none = none ∧ ∀ e : GoErr, (FromError (some e)).isSome = true :=
  ⟨rfl, fun _ => rfl⟩

/-- Claim C7: the dedup invariant — appending the same leaf text twice is
idempotent, and `append`, `parseError`, and `SetAttr` all preserve the
invariant that no two leaves share a string and `uniqErrs` mirrors the
leaf strings (which the empty container satisfies). -/
theorem c7_theorem :
    (∀ (e : ErrorX) (x : GoErr), (e.append [x]).append [x] = e.append [x]) ∧
    (∀ (l : List GoErr) (e : ErrorX), inv e → inv (e.append l)) ∧
    (∀ (tgt : ErrorX) (err : GoErr), inv tgt → inv (parseError tgt err)) ∧
    (∀ (e : ErrorX) (l : List (GoStr × GoStr)), inv e → inv (e.setAttr l)) ∧
    inv ErrorX.empty :=
  ⟨append_same, inv_append,
    fun tgt err h => parseF_inv (errSize err) tgt err h,
    fun e l h => inv_setAttr e l h, inv_empty⟩

/-- Witness for C7 at concrete inputs. -/
theorem c7_witness :
    ((ErrorX.empty.append [.basic ['a']]).append [.basic ['a']]
        = ErrorX.empty.append [.basic ['a']]) ∧
    inv (parseError ErrorX.empty (.basic ['a'])) :=
  ⟨c7_theorem.1 ErrorX.empty (.basic ['a']),
    c7_theorem.2.2.1 ErrorX.empty (.basic ['a']) (by decide)⟩

/-- Claim C8, counterexample: for a container with zero leaves whose kind
name itself ends with the separator (kind `"x;"`), the renderer's final
`TrimSuffix` strips the trailing `"; "` out of the prefix, so the output
is not the kind prefix followed by the (empty) joined leaves. -/
theorem c8_counterexample :
    ErrorX.error ⟨some ['x', ';'], [], [], []⟩ ≠
      kindPartStr (some ['x', ';']) ++ attrsPartStr [] ++
        sepJoin ErrorSeperator (([] : List GoErr).map goErrError) := by decide

/-- Claim C8, amended: for every container with at least one leaf,
`Error()` is exactly the `errKind=<tag> ` prefix (present iff the kind is
set and non-empty), then the attribute group followed by a space (present
iff at least one attribute exists), then the leaf strings joined by the
separator with no trailing separator.  With zero leaves the whole string
is additionally stripped of one trailing separator occurrence. -/
theorem c8_theorem (e : ErrorX) (h : e.errs ≠ []) :
    ErrorX.error e = kindPartStr e.kind ++ attrsPartStr e.attrs ++
      sepJoin ErrorSeperator (e.errs.map goErrError) :=
  render_nonempty e h

/-- Witness for C8 at a concrete container with kind, one attribute and
two leaves. -/
theorem c8_witness :
    ((⟨some "net".toList, [(['k'], ['v'])], [.basic ['a'], .basic ['b']],
        [['a'], ['b']]⟩ : ErrorX)).errs ≠ [] ∧
    ErrorX.error ⟨some "net".toList, [(['k'], ['v'])],
        [.basic ['a'], .basic ['b']], [['a'], ['b']]⟩ =
      kindPartStr (some "net".toList) ++ attrsPartStr [(['k'], ['v'])] ++
        sepJoin ErrorSeperator ([GoErr.basic ['a'], GoErr.basic ['b']].map goErrError) :=
  ⟨by simp, c8_theorem _ (by simp)⟩

/-- Claim C9, counterexample: Go map iteration order is unspecified, so
any permutation of the stored attributes is an admissible iteration order;
for two attributes the swapped order is admissible yet differs from
insertion order, refuting deterministic insertion-order iteration. -/
theorem c9_counterexample :
    validIterOrder (ErrorX.empty.setAttr [(['a'], ['1']), (['b'], ['2'])])
      [(['b'], ['2']), (['a'], ['1'])] ∧
    [((['b'] : GoStr), (['2'] : GoStr)), (['a'], ['1'])] ≠
      (ErrorX.empty.setAttr [(['a'], ['1']), (['b'], ['2'])]).attrs := by
  constructor
  · unfold validIterOrder
    decide
  · decide

/-- Claim C9, amended: `SetAttr` inserts an attribute only when its key is
new and the count is below `MaxErrorDepth`, so `SetAttr({k:1},{k:2})`
retains only the first value for `k`; the iteration order of the stored
attributes is only guaranteed to be some permutation of the inserted
attributes (Go map iteration order), not deterministic insertion order. -/
theorem c9_theorem :
    (∀ k v1 v2 : GoStr,
      (ErrorX.empty.setAttr [(k, v1), (k, v2)]).attrs = [(k, v1)]) ∧
    (∀ (e : ErrorX) (ord : List (GoStr × GoStr)), validIterOrder e ord →
      ord.length = e.attrs.length ∧ ∀ kv ∈ ord, kv ∈ e.attrs) := by
  constructor
  · intro k v1 v2
    simp [ErrorX.setAttr, setAttrOne, ErrorX.empty, MaxErrorDepth]
  · intro e ord hp
    exact ⟨hp.length_eq, fun kv hkv => hp.mem_iff.mp hkv⟩

/-- Witness for C9 at concrete attributes. -/
theorem c9_witness :
    (ErrorX.empty.setAttr [((['k'] : GoStr), (['1'] : GoStr)), (['k'], ['2'])]).attrs
        = [(['k'], ['1'])] ∧
    ([((['a'] : GoStr), (['1'] : GoStr))].length =
        (ErrorX.empty.setAttr [(['a'], ['1'])]).attrs.length ∧
      ∀ kv ∈ [((['a'] : GoStr), (['1'] : GoStr))],
        kv ∈ (ErrorX.empty.setAttr [(['a'], ['1'])]).attrs) :=
  ⟨c9_theorem.1 ['k'] ['1'] ['2'],
    c9_theorem.2 (ErrorX.empty.setAttr [(['a'], ['1'])]) [(['a'], ['1'])]
      (by unfold validIterOrder; decide)⟩

/-- Claim C10: classifying a canonical `ErrorX` container holding zero
leaves yields a non-nil container whose leaf list is empty and whose
`Cause()` is nil: classification of a non-nil error does not guarantee a
leaf. -/
theorem c10_theorem :
    (FromError (some (.errorX none [] .nil))).isSome = true ∧
    Option.map (fun x => x.errs) (FromError (some (.errorX none [] .nil)))
      = some [] ∧
    Option.map ErrorX.cause (FromError (some (.errorX none [] .nil)))
      = some none :=
  ⟨rfl, rfl, rfl⟩
